import Mathlib

/-!
Verification development for the AstraCode index builder
(`astra-index.py`).  The Python source is shallowly embedded: bytes are
`Fin 256`, file contents are `String`, the filesystem is a finite tree of
named files plus a content map, external document-parsing libraries are
modelled by per-file recorded outcomes, and every fallible operation
returns an `Option`.
-/

/-- A raw byte of file content. -/
abbrev Byte := Fin 256

/-- Path of a file or folder, as its list of components. -/
abbrev Fpath := List String

/-- Whitespace characters recognised by Python's `str.strip` / `\s`
(ASCII fragment). -/
def pyIsSpace (c : Char) : Bool :=
  c = ' ' || c = '\t' || c = '\n' || c = '\r' || c = '\x0b' || c = '\x0c'

/-- Word characters of the regex class `\w` (ASCII fragment). -/
def isWordChar (c : Char) : Bool :=
  c.isAlpha || c.isDigit || c = '_'

/-- ASCII lower-casing of one character, as `str.lower` acts on ASCII. -/
def pyLowerChar (c : Char) : Char :=
  if 'A' ≤ c ∧ c ≤ 'Z' then Char.ofNat (c.toNat + 32) else c

/-- ASCII upper-casing of one character, as `str.upper` acts on ASCII. -/
def pyUpperChar (c : Char) : Char :=
  if 'a' ≤ c ∧ c ≤ 'z' then Char.ofNat (c.toNat - 32) else c

/-- ASCII lower-casing of a string. -/
def pyLower (s : String) : String := ⟨s.data.map pyLowerChar⟩

/-- `content.split('\n')`: split at every newline, keeping empty parts. -/
def splitNl : List Char → List (List Char)
  | [] => [[]]
  | c :: rest =>
    let r := splitNl rest
    if c = '\n' then [] :: r
    else
      match r with
      | [] => [[c]]
      | h :: t => (c :: h) :: t

/-- `pathlib.Path.suffix`: the final `"."`-suffix of a file name, empty
unless the last dot is at position `0 < i < len - 1`. -/
def lastDotIdx : List Char → Option Nat
  | [] => none
  | c :: rest =>
    match lastDotIdx rest with
    | some i => some (i + 1)
    | none => if c = '.' then some 0 else none

def pySuffix (name : String) : String :=
  let cs := name.data
  match lastDotIdx cs with
  | some i => if 0 < i ∧ i < cs.length - 1 then ⟨cs.drop i⟩ else ""
  | none => ""

/-- Last component of a path (the file name). -/
def lastComponent (p : Fpath) : String := p.getLastD ""

/-! ### Text decoding (`read_text_file`)

The four named codecs of the source's encoding list, implemented with
Python's strict error handling, plus the `errors='replace'` fallback. -/

/-- A UTF-8 continuation byte. -/
def contOk (b : Byte) : Bool := 0x80 ≤ b.val && b.val ≤ 0xBF

/-- Strict UTF-8 decoding (rejects overlong forms and surrogates, like
Python's `bytes.decode('utf-8')`). -/
def utf8Decode : List Byte → Option (List Char)
  | [] => some []
  | b :: rest =>
    let n := b.val
    if n ≤ 0x7F then
      (utf8Decode rest).map (fun cs => Char.ofNat n :: cs)
    else if 0xC2 ≤ n ∧ n ≤ 0xDF then
      match rest with
      | b2 :: rest2 =>
        if contOk b2 then
          (utf8Decode rest2).map
            (fun cs => Char.ofNat ((n - 0xC0) * 0x40 + (b2.val - 0x80)) :: cs)
        else none
      | [] => none
    else if 0xE0 ≤ n ∧ n ≤ 0xEF then
      match rest with
      | b2 :: b3 :: rest3 =>
        let lo2 := if n = 0xE0 then 0xA0 else 0x80
        let hi2 := if n = 0xED then 0x9F else 0xBF
        if lo2 ≤ b2.val ∧ b2.val ≤ hi2 ∧ contOk b3 then
          (utf8Decode rest3).map
            (fun cs =>
              Char.ofNat ((n - 0xE0) * 0x1000 + (b2.val - 0x80) * 0x40 + (b3.val - 0x80)) :: cs)
        else none
      | _ => none
    else if 0xF0 ≤ n ∧ n ≤ 0xF4 then
      match rest with
      | b2 :: b3 :: b4 :: rest4 =>
        let lo2 := if n = 0xF0 then 0x90 else 0x80
        let hi2 := if n = 0xF4 then 0x8F else 0xBF
        if lo2 ≤ b2.val ∧ b2.val ≤ hi2 ∧ contOk b3 ∧ contOk b4 then
          (utf8Decode rest4).map
            (fun cs =>
              Char.ofNat ((n - 0xF0) * 0x40000 + (b2.val - 0x80) * 0x1000
                + (b3.val - 0x80) * 0x40 + (b4.val - 0x80)) :: cs)
        else none
      | _ => none
    else none

/-- Latin-1 maps every byte to the code point of the same value; it never
fails. -/
def latin1Decode (bs : List Byte) : Option (List Char) :=
  some (bs.map (fun b => Char.ofNat b.val))

/-- The Windows-1252 mapping of one byte; the five unassigned bytes fail. -/
def cp1252Char (n : Nat) : Option Nat :=
  if n ≤ 0x7F then some n
  else if 0xA0 ≤ n then some n
  else
    match n with
    | 0x80 => some 0x20AC
    | 0x82 => some 0x201A
    | 0x83 => some 0x0192
    | 0x84 => some 0x201E
    | 0x85 => some 0x2026
    | 0x86 => some 0x2020
    | 0x87 => some 0x2021
    | 0x88 => some 0x02C6
    | 0x89 => some 0x2030
    | 0x8A => some 0x0160
    | 0x8B => some 0x2039
    | 0x8C => some 0x0152
    | 0x8E => some 0x017D
    | 0x91 => some 0x2018
    | 0x92 => some 0x2019
    | 0x93 => some 0x201C
    | 0x94 => some 0x201D
    | 0x95 => some 0x2022
    | 0x96 => some 0x2013
    | 0x97 => some 0x2014
    | 0x98 => some 0x02DC
    | 0x99 => some 0x2122
    | 0x9A => some 0x0161
    | 0x9B => some 0x203A
    | 0x9C => some 0x0153
    | 0x9E => some 0x017E
    | 0x9F => some 0x0178
    | _ => none

def cp1252Decode : List Byte → Option (List Char)
  | [] => some []
  | b :: rest =>
    match cp1252Char b.val with
    | some n => (cp1252Decode rest).map (fun cs => Char.ofNat n :: cs)
    | none => none

/-- ASCII decoding fails on any byte above `0x7F`. -/
def asciiDecode : List Byte → Option (List Char)
  | [] => some []
  | b :: rest =>
    if b.val ≤ 0x7F then (asciiDecode rest).map (fun cs => Char.ofNat b.val :: cs)
    else none

/-- UTF-8 decoding with `errors='replace'`: ill-formed input yields
`U+FFFD`, consuming the maximal valid subpart of the bad sequence.  The
fuel argument (instantiated with the input length, which every step
strictly decreases) only makes the recursion structural. -/
def replaceDecodeAux : Nat → List Byte → List Char
  | 0, _ => []
  | _, [] => []
  | fuel + 1, b :: rest =>
    let n := b.val
    let bad : Char := Char.ofNat 0xFFFD
    if n ≤ 0x7F then Char.ofNat n :: replaceDecodeAux fuel rest
    else if 0xC2 ≤ n ∧ n ≤ 0xDF then
      match rest with
      | b2 :: rest2 =>
        if contOk b2 then
          Char.ofNat ((n - 0xC0) * 0x40 + (b2.val - 0x80)) :: replaceDecodeAux fuel rest2
        else bad :: replaceDecodeAux fuel (b2 :: rest2)
      | [] => [bad]
    else if 0xE0 ≤ n ∧ n ≤ 0xEF then
      match rest with
      | b2 :: rest2 =>
        let lo2 := if n = 0xE0 then 0xA0 else 0x80
        let hi2 := if n = 0xED then 0x9F else 0xBF
        if lo2 ≤ b2.val ∧ b2.val ≤ hi2 then
          match rest2 with
          | b3 :: rest3 =>
            if contOk b3 then
              Char.ofNat ((n - 0xE0) * 0x1000 + (b2.val - 0x80) * 0x40 + (b3.val - 0x80))
                :: replaceDecodeAux fuel rest3
            else bad :: replaceDecodeAux fuel (b3 :: rest3)
          | [] => [bad]
        else bad :: replaceDecodeAux fuel (b2 :: rest2)
      | [] => [bad]
    else if 0xF0 ≤ n ∧ n ≤ 0xF4 then
      match rest with
      | b2 :: rest2 =>
        let lo2 := if n = 0xF0 then 0x90 else 0x80
        let hi2 := if n = 0xF4 then 0x8F else 0xBF
        if lo2 ≤ b2.val ∧ b2.val ≤ hi2 then
          match rest2 with
          | b3 :: rest3 =>
            if contOk b3 then
              match rest3 with
              | b4 :: rest4 =>
                if contOk b4 then
                  Char.ofNat ((n - 0xF0) * 0x40000 + (b2.val - 0x80) * 0x1000
                    + (b3.val - 0x80) * 0x40 + (b4.val - 0x80)) :: replaceDecodeAux fuel rest4
                else bad :: replaceDecodeAux fuel (b4 :: rest4)
              | [] => [bad]
            else bad :: replaceDecodeAux fuel (b3 :: rest3)
          | [] => [bad]
        else bad :: replaceDecodeAux fuel (b2 :: rest2)
      | [] => [bad]
    else bad :: replaceDecodeAux fuel rest

def replaceDecode (bs : List Byte) : List Char := replaceDecodeAux bs.length bs

/-- The encodings of `read_text_file`, in the source's order. -/
inductive PyEncoding where
  | utf8
  | latin1
  | cp1252
  | ascii
deriving DecidableEq

def pyDecode : PyEncoding → List Byte → Option (List Char)
  | .utf8 => utf8Decode
  | .latin1 => latin1Decode
  | .cp1252 => cp1252Decode
  | .ascii => asciiDecode

def encodings : List PyEncoding :=
  [PyEncoding.utf8, PyEncoding.latin1, PyEncoding.cp1252, PyEncoding.ascii]

/-- The encoding loop of `read_text_file`: first encoding that decodes
without error wins. -/
def tryDecode : List PyEncoding → List Byte → Option String
  | [], _ => none
  | e :: rest, b =>
    match pyDecode e b with
    | some cs => some (String.mk cs)
    | none => tryDecode rest b

/-- `read_text_file`: the encoding loop, then the binary fallback that
decodes with replacement characters.  (The source's final `except` clause
returns `None` only when the fallback read itself raises, which the pure
model cannot.) -/
def readTextFile (b : List Byte) : Option String :=
  match tryDecode encodings b with
  | some s => some s
  | none => some (String.mk (replaceDecode b))

/-! ### Symbol extraction (`extract_functions`)

Each regex of the source is hand-compiled to a deterministic matcher on
the line's characters.  Greedy repetition is safe everywhere because the
adjacent character classes are disjoint; the only true branch points
(the optional keyword groups of the Java and JS rules and the optional
`SECTION` of the COBOL rule) are tried in the regex engine's order with
its fallback to the empty alternative. -/

/-- Consume `\s*`. -/
def dropWs (l : List Char) : List Char := l.dropWhile pyIsSpace

/-- Consume `\s+` (at least one whitespace character). -/
def reqWs : List Char → Option (List Char)
  | c :: rest => if pyIsSpace c then some (rest.dropWhile pyIsSpace) else none
  | [] => none

/-- Consume `(\w+)`: the captured run and the remainder. -/
def reqWord (l : List Char) : Option (List Char × List Char) :=
  match l with
  | c :: _ =>
    if isWordChar c then some (l.takeWhile isWordChar, l.dropWhile isWordChar) else none
  | [] => none

/-- `\w` or `-`, for the COBOL name class `\w[\w-]*`. -/
def isWordHyChar (c : Char) : Bool := isWordChar c || c = '-'

/-- Consume `(\w[\w-]*)`. -/
def reqWordHy (l : List Char) : Option (List Char × List Char) :=
  match l with
  | c :: _ =>
    if isWordChar c then some (l.takeWhile isWordHyChar, l.dropWhile isWordHyChar) else none
  | [] => none

/-- Consume a literal keyword. -/
def litPrefix (kw : String) (l : List Char) : Option (List Char) :=
  if kw.data.isPrefixOf l then some (l.drop kw.data.length) else none

/-- Consume a literal keyword case-insensitively (`re.IGNORECASE`). -/
def ciPrefix (kw : String) (l : List Char) : Option (List Char) :=
  let n := kw.data.length
  if n ≤ l.length ∧ (l.take n).map pyLowerChar = kw.data.map pyLowerChar then
    some (l.drop n)
  else none

/-- One symbol record `{'name', 'type', 'line'}`. -/
structure FuncRec where
  name : String
  type : String
  line : Nat
deriving DecidableEq

/-- `^\s*(PROC|SUBPROC)\s+(\w+)` with `re.IGNORECASE`; the type is the
matched keyword upper-cased. -/
def matchTal (l : List Char) : Option (String × String) :=
  let s := dropWs l
  let tryKw : String → String → Option (String × String) := fun kw ty =>
    match ciPrefix kw s with
    | none => none
    | some r =>
      match reqWs r with
      | none => none
      | some r2 =>
        match reqWord r2 with
        | none => none
        | some (nm, _) => some (String.mk nm, ty)
  match tryKw "PROC" "PROC" with
  | some x => some x
  | none => tryKw "SUBPROC" "SUBPROC"

/-- `^\s{7}(\w[\w-]*)\s*(SECTION)?\.` -/
def matchCobol (l : List Char) : Option (String × String) :=
  let pre := l.take 7
  if pre.length = 7 ∧ pre.all pyIsSpace then
    match reqWordHy (l.drop 7) with
    | none => none
    | some (nm, rest) =>
      let r := dropWs rest
      match litPrefix "SECTION" r with
      | some r2 =>
        if r2.headD ' ' = '.' then some (String.mk nm, "SECTION")
        else if r.headD ' ' = '.' then some (String.mk nm, "PARAGRAPH")
        else none
      | none =>
        if r.headD ' ' = '.' then some (String.mk nm, "PARAGRAPH") else none
  else none

/-- The deterministic tail `\w+\s+(\w+)\s*\(` of the Java rule. -/
def javaTail (l : List Char) : Option String :=
  match reqWord l with
  | none => none
  | some (_, r1) =>
    match reqWs r1 with
    | none => none
    | some r2 =>
      match reqWord r2 with
      | none => none
      | some (nm, r3) =>
        if (dropWs r3).headD ' ' = '(' then some (String.mk nm) else none

/-- `\s*(static)?\s*` followed by the Java tail, with the regex fallback
from a matched `static` to the empty alternative. -/
def javaAfterVis (l : List Char) : Option String :=
  let s := dropWs l
  match litPrefix "static" s with
  | some r =>
    match javaTail (dropWs r) with
    | some nm => some nm
    | none => javaTail s
  | none => javaTail s

/-- `^\s*(public|private|protected)?\s*(static)?\s*\w+\s+(\w+)\s*\(` -/
def matchJava (l : List Char) : Option String :=
  let s := dropWs l
  let tryVis : String → Option String := fun kw =>
    match litPrefix kw s with
    | some r => javaAfterVis r
    | none => none
  match tryVis "public" with
  | some nm => some nm
  | none =>
    match tryVis "private" with
    | some nm => some nm
    | none =>
      match tryVis "protected" with
      | some nm => some nm
      | none => javaAfterVis s

/-- `^\s*def\s+(\w+)\s*\(` -/
def matchPyDef (l : List Char) : Option String :=
  let s := dropWs l
  match litPrefix "def" s with
  | none => none
  | some r =>
    match reqWs r with
    | none => none
    | some r2 =>
      match reqWord r2 with
      | none => none
      | some (nm, r3) =>
        if (dropWs r3).headD ' ' = '(' then some (String.mk nm) else none

/-- `^\s*class\s+(\w+)` -/
def matchPyClass (l : List Char) : Option String :=
  let s := dropWs l
  match litPrefix "class" s with
  | none => none
  | some r =>
    match reqWs r with
    | none => none
    | some r2 =>
      match reqWord r2 with
      | some (nm, _) => some (String.mk nm)
      | none => none

/-- `function\s+(\w+)`, the common tail of the first JS rule. -/
def jsFunTail (l : List Char) : Option String :=
  match litPrefix "function" l with
  | none => none
  | some r =>
    match reqWs r with
    | none => none
    | some r2 =>
      match reqWord r2 with
      | some (nm, _) => some (String.mk nm)
      | none => none

/-- `^\s*(async\s+)?function\s+(\w+)` -/
def matchJs1 (l : List Char) : Option String :=
  let s := dropWs l
  match litPrefix "async" s with
  | some r =>
    match r with
    | c :: _ =>
      if pyIsSpace c then
        match jsFunTail (dropWs r) with
        | some nm => some nm
        | none => jsFunTail s
      else jsFunTail s
    | [] => jsFunTail s
  | none => jsFunTail s

/-- `(\(|function)`, the end of the second JS rule. -/
def jsArrowEnd (l : List Char) : Bool :=
  match l with
  | '(' :: _ => true
  | _ => "function".data.isPrefixOf l

/-- `^\s*(const|let|var)\s+(\w+)\s*=\s*(async\s+)?(\(|function)` -/
def matchJs2 (l : List Char) : Option String :=
  let s := dropWs l
  let tryKw : String → Option String := fun kw =>
    match litPrefix kw s with
    | none => none
    | some r =>
      match reqWs r with
      | none => none
      | some r2 =>
        match reqWord r2 with
        | none => none
        | some (nm, r3) =>
          match dropWs r3 with
          | '=' :: r5 =>
            let r6 := dropWs r5
            let endOk : Bool :=
              match litPrefix "async" r6 with
              | some r7 =>
                (match r7 with
                 | c :: _ =>
                   if pyIsSpace c then jsArrowEnd (dropWs r7) || jsArrowEnd r6
                   else jsArrowEnd r6
                 | [] => jsArrowEnd r6)
              | none => jsArrowEnd r6
            if endOk then some (String.mk nm) else none
          | _ => none
  match tryKw "const" with
  | some nm => some nm
  | none =>
    match tryKw "let" with
    | some nm => some nm
    | none => tryKw "var"

/-- Records contributed by one TAL line. -/
def talLine (i : Nat) (l : List Char) : List FuncRec :=
  match matchTal l with
  | some (nm, ty) => [{ name := nm, type := ty, line := i + 1 }]
  | none => []

/-- Records contributed by one COBOL line. -/
def cobolLine (i : Nat) (l : List Char) : List FuncRec :=
  match matchCobol l with
  | some (nm, ty) => [{ name := nm, type := ty, line := i + 1 }]
  | none => []

/-- Records contributed by one Java line. -/
def javaLine (i : Nat) (l : List Char) : List FuncRec :=
  match matchJava l with
  | some nm => [{ name := nm, type := "method", line := i + 1 }]
  | none => []

/-- Records contributed by one Python line: the `def` check, then the
`class` check, appended in that order. -/
def pyLine (i : Nat) (l : List Char) : List FuncRec :=
  (match matchPyDef l with
   | some nm => [{ name := nm, type := "function", line := i + 1 }]
   | none => []) ++
  (match matchPyClass l with
   | some nm => [{ name := nm, type := "class", line := i + 1 }]
   | none => [])

/-- Records contributed by one JS/TS line: the `function` pattern, then
the `const name = ...` pattern. -/
def jsLine (i : Nat) (l : List Char) : List FuncRec :=
  (match matchJs1 l with
   | some nm => [{ name := nm, type := "function", line := i + 1 }]
   | none => []) ++
  (match matchJs2 l with
   | some nm => [{ name := nm, type := "function", line := i + 1 }]
   | none => [])

/-- `extract_functions(content, ext)`. -/
def extractFunctions (content : String) (ext : String) : List FuncRec :=
  let lines := splitNl content.data
  if ext ∈ [".tal"] then
    lines.enum.flatMap (fun p => talLine p.1 p.2)
  else if ext ∈ [".cbl", ".cob", ".cobol", ".cpy"] then
    lines.enum.flatMap (fun p => cobolLine p.1 p.2)
  else if ext ∈ [".java"] then
    lines.enum.flatMap (fun p => javaLine p.1 p.2)
  else if ext ∈ [".py"] then
    lines.enum.flatMap (fun p => pyLine p.1 p.2)
  else if ext ∈ [".js", ".ts", ".jsx", ".tsx"] then
    lines.enum.flatMap (fun p => jsLine p.1 p.2)
  else []

/-- One entry of `build_line_index`. -/
structure IndexedLine where
  line : Nat
  content : String
  lower : String
deriving DecidableEq

/-- `build_line_index(content, filepath)`: non-blank lines with their
1-based number and a lower-cased copy.  (The `filepath` parameter is
unused in the source as well.) -/
def buildLineIndex (content : String) (filepath : Fpath) : List IndexedLine :=
  (splitNl content.data).enum.filterMap (fun p =>
    if p.2.any (fun c => ! pyIsSpace c) then
      some { line := p.1 + 1, content := String.mk p.2, lower := String.mk (p.2.map pyLowerChar) }
    else none)

/-! ### Filesystem model and directory scan (`scan_directory`)

`os.walk` is modelled as a walk over a finite tree of named files and
subdirectories; pruning `SKIP_DIRS` from `dirs` before descending is the
walk skipping those subtrees.  File contents live in a separate map
`fd : Fpath → FileData`, the pure counterpart of opening a path. -/

mutual
inductive FSTree where
  | node (files : List String) (subdirs : FSForest) : FSTree
inductive FSForest where
  | nil : FSForest
  | cons (name : String) (tree : FSTree) (rest : FSForest) : FSForest
end

/-- `SKIP_DIRS`. -/
def SKIP_DIRS : List String :=
  ["node_modules", ".git", ".svn", "__pycache__",
   "venv", ".venv", "env", ".env",
   "dist", "build", "target", "out",
   "generated"]

/-- `CODE_EXTENSIONS`. -/
def CODE_EXTENSIONS : List String :=
  [".tal", ".cbl", ".cob", ".cobol", ".pli", ".pco", ".cpy",
   ".java", ".py", ".js", ".ts", ".jsx", ".tsx",
   ".c", ".cpp", ".h", ".hpp", ".cs", ".go", ".rs", ".rb",
   ".sql", ".json", ".yaml", ".yml", ".xml",
   ".txt", ".md", ".csv"]

/-- Supported document kinds. -/
inductive DocKind where
  | pdf
  | excel
  | word
deriving DecidableEq

/-- `DOC_EXTENSIONS`. -/
def docExtType : String → Option DocKind
  | ".pdf" => some DocKind.pdf
  | ".xlsx" => some DocKind.excel
  | ".xls" => some DocKind.excel
  | ".docx" => some DocKind.word
  | _ => none

mutual
/-- `os.walk` from a directory: the directory's files first, then the
non-pruned subtrees in order. -/
def walkTree (pre : Fpath) : FSTree → List Fpath
  | .node files subdirs => files.map (fun n => pre ++ [n]) ++ walkForest pre subdirs
def walkForest (pre : Fpath) : FSForest → List Fpath
  | .nil => []
  | .cons n t rest =>
    (if n ∈ SKIP_DIRS then [] else walkTree (pre ++ [n]) t) ++ walkForest pre rest
end

/-- `stats` dictionary of `build_index`. -/
structure Stats where
  code_files : Nat
  doc_files : Nat
  indexed_files : Nat
  total_lines : Nat
  functions : Nat
  errors : Nat
deriving DecidableEq

def initStats : Stats :=
  { code_files := 0, doc_files := 0, indexed_files := 0,
    total_lines := 0, functions := 0, errors := 0 }

/-- One scanned file candidate (`{'path', 'type', 'ext'(, 'doc_type')}`). -/
inductive Candidate where
  | code (path : Fpath) (ext : String)
  | doc (path : Fpath) (docType : DocKind) (ext : String)
deriving DecidableEq

def candPath : Candidate → Fpath
  | .code p _ => p
  | .doc p _ _ => p

/-- Classification of one file by its (lower-cased) suffix. -/
def classifyPath (p : Fpath) : Option Candidate :=
  let ext := pyLower (pySuffix (lastComponent p))
  if ext ∈ CODE_EXTENSIONS then some (Candidate.code p ext)
  else
    match docExtType ext with
    | some dk => some (Candidate.doc p dk ext)
    | none => none

/-- The per-candidate stats bump of the scan loop. -/
def statBump (st : Stats) : Candidate → Stats
  | .code _ _ => { st with code_files := st.code_files + 1 }
  | .doc _ _ _ => { st with doc_files := st.doc_files + 1 }

/-- The classification loop inside `scan_directory`. -/
def classifyLoop (st : Stats) : List Fpath → List Candidate × Stats
  | [] => ([], st)
  | p :: rest =>
    match classifyPath p with
    | none => classifyLoop st rest
    | some c =>
      let r := classifyLoop (statBump st c) rest
      (c :: r.1, r.2)

/-- `scan_directory(dirpath, stats)`: a missing root contributes nothing
(only a warning is printed). -/
def scanDirectory (root : Fpath) (t : Option FSTree) (st : Stats) :
    List Candidate × Stats :=
  match t with
  | none => ([], st)
  | some tree => classifyLoop st (walkTree root tree)

/-- The `all_files.extend(scan_directory(folder, stats))` loop. -/
def scanAll : List (Fpath × Option FSTree) → Stats → List Candidate × Stats
  | [], st => ([], st)
  | (r, t) :: rest, st =>
    let s1 := scanDirectory r t st
    let s2 := scanAll rest s1.2
    (s1.1 ++ s2.1, s2.2)

/-! ### Document parsing (`parse_pdf` / `parse_excel` / `parse_word`)

The external libraries (pdfplumber, PyPDF2, openpyxl, python-docx) are
out of scope; each file records the outcome their call would have
(`Except.error` standing for a raised exception, carrying its message). -/

/-- `PARSERS_AVAILABLE`. -/
structure Caps where
  pdf : Bool
  excel : Bool
  word : Bool
  pdfplumber : Bool
deriving DecidableEq

/-- Metadata dictionaries returned by the parsers. -/
inductive DocMeta where
  | pages (n : Nat)
  | sheets (s : List (String × Nat))
  | paragraphs (n : Nat)
  | error (msg : String)
deriving DecidableEq

instance {ε α : Type} [DecidableEq ε] [DecidableEq α] : DecidableEq (Except ε α) := fun x y =>
  match x, y with
  | .ok a, .ok b =>
    if h : a = b then .isTrue (h ▸ rfl) else .isFalse (fun hh => h (Except.ok.inj hh))
  | .error a, .error b =>
    if h : a = b then .isTrue (h ▸ rfl) else .isFalse (fun hh => h (Except.error.inj hh))
  | .ok _, .error _ => .isFalse (fun hh => Except.noConfusion hh)
  | .error _, .ok _ => .isFalse (fun hh => Except.noConfusion hh)

/-- Per-file data: raw bytes for the code reader, and the recorded
outcome of each external document-extraction library on this file. -/
structure FileData where
  bytes : List Byte
  plumber : Except String (String × Nat)
  pypdf : Except String (String × Nat)
  excel : Except String (String × List (String × Nat))
  word : Except String (String × Nat)
deriving DecidableEq

/-- `parse_pdf`: pdfplumber first (an exception falls through), then
PyPDF2, else a missing-parser failure. -/
def parsePdf (caps : Caps) (d : FileData) : Option String × DocMeta :=
  let step2 : Option String × DocMeta :=
    if caps.pdf then
      match d.pypdf with
      | .ok (t, n) => (some t, DocMeta.pages n)
      | .error e => (none, DocMeta.error e)
    else (none, DocMeta.error "No PDF parser installed")
  if caps.pdfplumber then
    match d.plumber with
    | .ok (t, n) => (some t, DocMeta.pages n)
    | .error _ => step2
  else step2

/-- `parse_excel`. -/
def parseExcel (caps : Caps) (d : FileData) : Option String × DocMeta :=
  if caps.excel then
    match d.excel with
    | .ok (t, sh) => (some t, DocMeta.sheets sh)
    | .error e => (none, DocMeta.error e)
  else (none, DocMeta.error "openpyxl not installed")

/-- `parse_word`. -/
def parseWord (caps : Caps) (d : FileData) : Option String × DocMeta :=
  if caps.word then
    match d.word with
    | .ok (t, n) => (some t, DocMeta.paragraphs n)
    | .error e => (none, DocMeta.error e)
  else (none, DocMeta.error "python-docx not installed")

/-- `parse_document(filepath, doc_type)`. -/
def parseDocument (caps : Caps) (d : FileData) : DocKind → Option String × DocMeta
  | .pdf => parsePdf caps d
  | .excel => parseExcel caps d
  | .word => parseWord caps d

/-- Whether the startup capability banner reports this document kind as
ready (`PDF` is ready when either PDF library imported). -/
def capsFor (caps : Caps) : DocKind → Bool
  | .pdf => caps.pdf || caps.pdfplumber
  | .excel => caps.excel
  | .word => caps.word

/-! ### Index assembly (`build_index`) -/

/-- A value of `index['files'][filepath]`: either a code entry or a
document entry, discriminated by its `type` field in the source. -/
inductive Entry where
  | code (path : Fpath) (relative : Fpath) (ext : String) (lines : Nat)
      (functions : List FuncRec) (content : List IndexedLine)
  | doc (path : Fpath) (relative : Fpath) (docType : DocKind) (ext : String)
      (lines : Nat) (metadata : DocMeta) (content : List IndexedLine)
deriving DecidableEq

def entryLines : Entry → Nat
  | .code _ _ _ n _ _ => n
  | .doc _ _ _ _ n _ _ => n

def entryFunctions : Entry → List FuncRec
  | .code _ _ _ _ fs _ => fs
  | .doc _ _ _ _ _ _ _ => []

/-- One element of the global `index['functions']` list. -/
structure GFunc where
  name : String
  type : String
  file : Fpath
  line : Nat
deriving DecidableEq

/-- Python-dict assignment `m[k] = v`: replace in place or append. -/
def dictInsert (k : Fpath) (v : Entry) : List (Fpath × Entry) → List (Fpath × Entry)
  | [] => [(k, v)]
  | (k', v') :: rest =>
    if k' = k then (k, v) :: rest else (k', v') :: dictInsert k v rest

def dictLookup (k : Fpath) : List (Fpath × Entry) → Option Entry
  | [] => none
  | (k', v) :: rest => if k' = k then some v else dictLookup k rest

/-- The relative-path loop: the first folder the path resolves under,
else the path itself. -/
def relPath (folders : List Fpath) (p : Fpath) : Fpath :=
  match folders with
  | [] => p
  | f :: rest => if f.isPrefixOf p then p.drop f.length else relPath rest p

/-- The mutable loop state of `build_index`: the `files` map, the global
`functions` list and `stats`. -/
structure BuildAcc where
  files : List (Fpath × Entry)
  functions : List GFunc
  stats : Stats
deriving DecidableEq

/-- The code entry stored at lines 395-403 of the source. -/
def mkCodeEntry (folders : List Fpath) (p : Fpath) (ext : String) (content : String) : Entry :=
  Entry.code p (relPath folders p) ext (splitNl content.data).length
    (extractFunctions content ext) (buildLineIndex content p)

/-- The global records appended for one code file. -/
def mkGlobals (p : Fpath) (funcs : List FuncRec) : List GFunc :=
  funcs.map (fun f => { name := f.name, type := f.type, file := p, line := f.line })

/-- The document entry stored at lines 430-439 of the source. -/
def mkDocEntry (folders : List Fpath) (p : Fpath) (dk : DocKind) (ext : String)
    (text : String) (meta : DocMeta) : Entry :=
  Entry.doc p (relPath folders p) dk ext (splitNl text.data).length meta
    (buildLineIndex text p)

/-- Outcome of processing one candidate: `none` is a failure (the error
counter's case), `some` carries the entry and the new global records. -/
def candOutcome (folders : List Fpath) (caps : Caps) (fd : Fpath → FileData) :
    Candidate → Option (Entry × List GFunc)
  | .code p ext =>
    (readTextFile (fd p).bytes).map (fun content =>
      (mkCodeEntry folders p ext content, mkGlobals p (extractFunctions content ext)))
  | .doc p dk ext =>
    match parseDocument caps (fd p) dk with
    | (none, _) => none
    | (some text, meta) => (some (mkDocEntry folders p dk ext text meta, []))

/-- Applying one candidate's outcome to the loop state: failure counts
one error and stores nothing; success stores the entry under its path,
appends the globals and bumps the counters (as in lines 395-416 and
427-442 of the source; for documents the globals are empty, so the
`functions` counter gains zero). -/
def applyOutcome (acc : BuildAcc) (p : Fpath) : Option (Entry × List GFunc) → BuildAcc
  | none => { acc with stats := { acc.stats with errors := acc.stats.errors + 1 } }
  | some (e, gs) =>
    { files := dictInsert p e acc.files,
      functions := acc.functions ++ gs,
      stats := { acc.stats with
        total_lines := acc.stats.total_lines + entryLines e,
        functions := acc.stats.functions + gs.length,
        indexed_files := acc.stats.indexed_files + 1 } }

/-- The code branch of the loop body, given the `read_text_file` result. -/
def processCode (folders : List Fpath) (acc : BuildAcc) (p : Fpath) (ext : String) :
    Option String → BuildAcc
  | none => { acc with stats := { acc.stats with errors := acc.stats.errors + 1 } }
  | some content =>
    applyOutcome acc p
      (some (mkCodeEntry folders p ext content, mkGlobals p (extractFunctions content ext)))

/-- The document branch of the loop body, given the `parse_document`
result. -/
def processDoc (folders : List Fpath) (acc : BuildAcc) (p : Fpath) (dk : DocKind)
    (ext : String) : Option String × DocMeta → BuildAcc
  | (none, _) => { acc with stats := { acc.stats with errors := acc.stats.errors + 1 } }
  | (some text, meta) => applyOutcome acc p (some (mkDocEntry folders p dk ext text meta, []))

/-- The loop body of `build_index` for one candidate. -/
def processOne (folders : List Fpath) (caps : Caps) (fd : Fpath → FileData)
    (acc : BuildAcc) : Candidate → BuildAcc
  | .code p ext => processCode folders acc p ext (readTextFile (fd p).bytes)
  | .doc p dk ext => processDoc folders acc p dk ext (parseDocument caps (fd p) dk)

/-- The indexing loop over all candidates. -/
def processAll (folders : List Fpath) (caps : Caps) (fd : Fpath → FileData) :
    BuildAcc → List Candidate → BuildAcc
  | acc, [] => acc
  | acc, c :: rest => processAll folders caps fd (processOne folders caps fd acc c) rest

/-- The in-memory index dictionary, with the fields of the source's
literal at lines 355-363 (`search_index` is created empty and never
appended to). -/
structure AstraIndex where
  version : String
  created : String
  folders : List Fpath
  stats : Stats
  files : List (Fpath × Entry)
  functions : List GFunc
  search_index : List Unit

/-- `build_index(folders, ...)`: probe nothing (capabilities are given),
scan all roots, process every candidate, attach the final stats.  The
`created` timestamp is a parameter standing for `datetime.now()`;
`verbose` and the output path only affect printing and are omitted. -/
def buildIndex (roots : List (Fpath × Option FSTree)) (fd : Fpath → FileData)
    (created : String) (caps : Caps) : AstraIndex :=
  let scanned := scanAll roots initStats
  let folders := roots.map Prod.fst
  let acc := processAll folders caps fd
    { files := [], functions := [], stats := scanned.2 } scanned.1
  { version := "1.0", created := created, folders := folders,
    stats := acc.stats, files := acc.files, functions := acc.functions,
    search_index := [] }

/-! ### Serialization (`json.dump(index, ...)`) -/

inductive JsonVal where
  | str (s : String)
  | num (n : Nat)
  | arr (xs : List JsonVal)
  | obj (fields : List (String × JsonVal))

/-- A path as the string key the source uses (`str(filepath)`). -/
def pathStr (p : Fpath) : String := String.intercalate "/" p

def encodeFuncRec (f : FuncRec) : JsonVal :=
  .obj [("name", .str f.name), ("type", .str f.type), ("line", .num f.line)]

def encodeIndexedLine (il : IndexedLine) : JsonVal :=
  .obj [("line", .num il.line), ("content", .str il.content), ("lower", .str il.lower)]

def encodeGFunc (g : GFunc) : JsonVal :=
  .obj [("name", .str g.name), ("type", .str g.type),
        ("file", .str (pathStr g.file)), ("line", .num g.line)]

def encodeStats (st : Stats) : JsonVal :=
  .obj [("code_files", .num st.code_files), ("doc_files", .num st.doc_files),
        ("indexed_files", .num st.indexed_files), ("total_lines", .num st.total_lines),
        ("functions", .num st.functions), ("errors", .num st.errors)]

def encodeDocMeta : DocMeta → JsonVal
  | .pages n => .obj [("pages", .num n)]
  | .sheets s =>
    .obj [("sheets", .arr (s.map (fun p =>
      .obj [("name", .str p.1), ("rows", .num p.2)])))]
  | .paragraphs n => .obj [("paragraphs", .num n)]
  | .error msg => .obj [("error", .str msg)]

def dkStr : DocKind → String
  | .pdf => "pdf"
  | .excel => "excel"
  | .word => "word"

def encodeEntry : Entry → JsonVal
  | .code p rel ext lines funcs content =>
    .obj [("path", .str (pathStr p)), ("relative", .str (pathStr rel)),
          ("type", .str "code"), ("ext", .str ext), ("lines", .num lines),
          ("functions", .arr (funcs.map encodeFuncRec)),
          ("content", .arr (content.map encodeIndexedLine))]
  | .doc p rel dk ext lines meta content =>
    .obj [("path", .str (pathStr p)), ("relative", .str (pathStr rel)),
          ("type", .str "document"), ("doc_type", .str (dkStr dk)),
          ("ext", .str ext), ("lines", .num lines),
          ("metadata", encodeDocMeta meta),
          ("content", .arr (content.map encodeIndexedLine))]

/-- The serialized artifact: exactly the index dictionary, keys in
insertion order. -/
def encodeIndex (idx : AstraIndex) : JsonVal :=
  .obj [("version", .str idx.version),
        ("created", .str idx.created),
        ("folders", .arr (idx.folders.map (fun f => .str (pathStr f)))),
        ("stats", encodeStats idx.stats),
        ("files", .obj (idx.files.map (fun pe => (pathStr pe.1, encodeEntry pe.2)))),
        ("functions", .arr (idx.functions.map encodeGFunc)),
        ("search_index", .arr [])]

/-- Top-level keys of a serialized object. -/
def topKeys : JsonVal → List String
  | .obj fields => fields.map Prod.fst
  | _ => []

/-- Sum of the stored `lines` fields over a files map. -/
def sumLines (l : List (Fpath × Entry)) : Nat :=
  (l.map (fun pe => entryLines pe.2)).sum

/-! ### Keyword extraction

Modelled from the spec: the Keyword Extractor of spec section 4.4 has no
counterpart anywhere in `src/`; the definitions below follow the spec's
words (two token shapes with minimum lengths 3 and 4, case-folding to
upper case, a fixed stopword set, frequency counting in first-seen
order, a stable sort by descending frequency, truncation to the caller's
maximum). -/

/-- Modelled from the spec: a representative fixed stopword set (common
English function words plus common code keywords). -/
def STOPWORDS : List String :=
  ["THE", "AND", "FOR", "NOT", "WITH", "THIS", "THAT", "FROM", "INTO",
   "RETURN", "PUBLIC", "PRIVATE", "PROTECTED", "STATIC", "CLASS", "VOID",
   "ELSE", "WHILE", "BREAK", "CONTINUE", "TRUE", "FALSE", "NULL", "NONE"]

/-- Maximal identifier-character runs of a text, left to right. -/
def tokenAux : List Char → List Char → List (List Char)
  | cur, [] => if cur.isEmpty then [] else [cur.reverse]
  | cur, c :: rest =>
    if isWordChar c then tokenAux (c :: cur) rest
    else if cur.isEmpty then tokenAux [] rest
    else cur.reverse :: tokenAux [] rest

def tokenizeRuns (l : List Char) : List (List Char) := tokenAux [] l

/-- Modelled from the spec: an uppercase/acronym-like token. -/
def isUpperTok (t : List Char) : Bool := !t.isEmpty && t.all Char.isUpper

/-- Modelled from the spec: a lowercase-initial identifier-like token. -/
def isLowerIdentTok (t : List Char) : Bool :=
  match t with
  | c :: _ => c.isLower
  | [] => false

/-- Modelled from the spec: the two admissible token shapes with their
minimum lengths (3 for uppercase tokens, 4 for identifier tokens). -/
def qualifies (t : List Char) : Bool :=
  (isUpperTok t && decide (3 ≤ t.length)) || (isLowerIdentTok t && decide (4 ≤ t.length))

/-- Case-folding to upper case for counting. -/
def caseFold (t : List Char) : String := String.mk (t.map pyUpperChar)

/-- Bump a token's frequency, preserving first-seen order. -/
def bumpCount (t : String) : List (String × Nat) → List (String × Nat)
  | [] => [(t, 1)]
  | (t', n) :: rest =>
    if t' = t then (t', n + 1) :: rest else (t', n) :: bumpCount t rest

/-- Stable insertion before the first strictly-smaller frequency. -/
def insertDesc (x : String × Nat) : List (String × Nat) → List (String × Nat)
  | [] => [x]
  | y :: rest => if y.2 < x.2 then x :: y :: rest else y :: insertDesc x rest

/-- Stable sort by descending frequency (first-seen order breaks ties). -/
def sortDesc (l : List (String × Nat)) : List (String × Nat) :=
  l.foldl (fun acc x => insertDesc x acc) []

/-- Modelled from the spec: the Keyword Extractor. -/
def extractKeywords (text : String) (maxKw : Nat) : List String :=
  let toks := ((tokenizeRuns text.data).filter qualifies).map caseFold
  let toks := toks.filter (fun t => t ∉ STOPWORDS)
  let counts := toks.foldl (fun acc t => bumpCount t acc) []
  ((sortDesc counts).map Prod.fst).take maxKw

/-! ### Concrete runs used by counterexamples and witnesses -/

/-- Bytes of an ASCII string. -/
def asciiBytes (s : String) : List Byte := s.data.map (fun c => Fin.ofNat c.toNat)

/-- File data whose external extractions all fail. -/
def fdNone : FileData :=
  { bytes := [], plumber := Except.error "boom", pypdf := Except.error "boom",
    excel := Except.error "boom", word := Except.error "boom" }

/-- File data for a given ASCII code file. -/
def fdOfCode (s : String) : FileData := { fdNone with bytes := asciiBytes s }

/-- File data for a PDF whose extraction succeeds with the given text. -/
def fdOfPdf (s : String) : FileData :=
  { fdNone with plumber := Except.ok (s, 1), pypdf := Except.ok (s, 1) }

def capsNone : Caps := { pdf := false, excel := false, word := false, pdfplumber := false }

def capsAll : Caps := { pdf := true, excel := true, word := true, pdfplumber := true }

/-- The loop state at the start of processing. -/
def accInit : BuildAcc := { files := [], functions := [], stats := initStats }

/-- The entry/globals a path would produce, as a function of the path:
candidates are classified from their path alone, so processing is
deterministic per path. -/
def pathEntry (folders : List Fpath) (caps : Caps) (fd : Fpath → FileData)
    (p : Fpath) : Option (Entry × List GFunc) :=
  match classifyPath p with
  | none => none
  | some c => candOutcome folders caps fd c

/-- Invariant tying the global `functions` list to the `files` map:
every global record's file is stored, its record is in that entry's
local list, and every stored entry is the one its path determines. -/
def GoodAcc (folders : List Fpath) (caps : Caps) (fd : Fpath → FileData)
    (acc : BuildAcc) : Prop :=
  (∀ g ∈ acc.functions,
    ∃ e gs, pathEntry folders caps fd g.file = some (e, gs)
      ∧ dictLookup g.file acc.files = some e
      ∧ ({ name := g.name, type := g.type, line := g.line } : FuncRec) ∈ entryFunctions e)
  ∧ (∀ p e, dictLookup p acc.files = some e →
      ∃ gs, pathEntry folders caps fd p = some (e, gs))

/-- A run over one missing-capability PDF. -/
def runC1 : AstraIndex :=
  buildIndex [(["r"], some (FSTree.node ["a.pdf"] FSForest.nil))]
    (fun _ => fdNone) "t" capsNone

/-- A run over one Python file and one parseable PDF, all parsers
available. -/
def runC3 : AstraIndex :=
  buildIndex [(["r"], some (FSTree.node ["a.py", "b.pdf"] FSForest.nil))]
    (fun p => if p = ["r", "b.pdf"] then fdOfPdf "hello" else fdOfCode "def f(x):")
    "t" capsAll

/-- A run in which the same root folder is passed twice. -/
def runC5 : AstraIndex :=
  buildIndex
    [(["r"], some (FSTree.node ["a.txt"] FSForest.nil)),
     (["r"], some (FSTree.node ["a.txt"] FSForest.nil))]
    (fun _ => fdOfCode "a") "t" capsNone

/-- A run whose root folder is itself named like an excluded directory. -/
def runC8 : AstraIndex :=
  buildIndex [(["node_modules"], some (FSTree.node ["a.py"] FSForest.nil))]
    (fun _ => fdOfCode "def f():") "t" capsNone

/-- A small clean run: one root, one Python file defining one function. -/
def runOk : AstraIndex :=
  buildIndex [(["r"], some (FSTree.node ["a.py"] FSForest.nil))]
    (fun _ => fdOfCode "def f(x):") "t" capsNone

/-! ## Theorems -/

theorem tryDecode_first (b : List Byte) :
    ∀ (pre : List PyEncoding) (e : PyEncoding) (post : List PyEncoding) (cs : List Char),
      pyDecode e b = some cs → (∀ e' ∈ pre, pyDecode e' b = none) →
      tryDecode (pre ++ e :: post) b = some (String.mk cs) := by
  intro pre
  induction pre with
  | nil =>
    intro e post cs h _
    simp [tryDecode, h]
  | cons x xs ih =>
    intro e post cs h hall
    have hx : pyDecode x b = none := hall x (List.mem_cons_self x xs)
    simp only [List.cons_append, tryDecode, hx]
    exact ih e post cs h (fun e' he' => hall e' (List.mem_cons_of_mem x he'))

theorem latin1_never_fails (b : List Byte) :
    pyDecode PyEncoding.latin1 b = some (b.map (fun x => Char.ofNat x.val)) := rfl

/-- C7: on the Python rule, the single line `def handler(x):` yields
exactly one record `handler` at line 1, and adding `class Handler:` as
line 2 yields one additional record `Handler` at line 2. -/
theorem c7_python_rule :
    extractFunctions "def handler(x):" ".py"
      = [{ name := "handler", type := "function", line := 1 }]
    ∧ extractFunctions "def handler(x):\nclass Handler:" ".py"
      = [{ name := "handler", type := "function", line := 1 },
         { name := "Handler", type := "class", line := 2 }] := by
  decide

/-- C1 (counterexample): with no parser capability available, a run over
a single PDF candidate increments the error counter to 1 (and stores
nothing), so a missing capability IS counted as an error, contrary to
the claim. -/
theorem c1_counterexample :
    capsFor capsNone DocKind.pdf = false
    ∧ runC1.stats.doc_files = 1
    ∧ runC1.files = []
    ∧ runC1.stats.errors = 1 := by
  decide

/-- C1 (amended): for a document candidate whose kind's capability was
unavailable at startup, the parse fails without consulting the file's
data (no document I/O), and the loop counts it as an error: the error
counter is incremented and no entry is stored. -/
theorem c1_missing_capability (caps : Caps) (dk : DocKind)
    (h : capsFor caps dk = false) (folders : List Fpath) (acc : BuildAcc)
    (p : Fpath) (ext : String) (d d' : FileData) :
    (parseDocument caps d dk).1 = none
    ∧ parseDocument caps d dk = parseDocument caps d' dk
    ∧ processDoc folders acc p dk ext (parseDocument caps d dk)
      = { acc with stats := { acc.stats with errors := acc.stats.errors + 1 } } := by
  cases dk with
  | pdf =>
    simp only [capsFor, Bool.or_eq_false_iff] at h
    simp [parseDocument, parsePdf, h.1, h.2, processDoc]
  | excel =>
    simp only [capsFor] at h
    simp [parseDocument, parseExcel, h, processDoc]
  | word =>
    simp only [capsFor] at h
    simp [parseDocument, parseWord, h, processDoc]

theorem c1_missing_capability_witness :
    (parseDocument capsNone fdNone DocKind.pdf).1 = none
    ∧ parseDocument capsNone fdNone DocKind.pdf
      = parseDocument capsNone (fdOfPdf "x") DocKind.pdf
    ∧ processDoc [] accInit ["r", "a.pdf"] DocKind.pdf ".pdf"
        (parseDocument capsNone fdNone DocKind.pdf)
      = { accInit with stats := { accInit.stats with errors := accInit.stats.errors + 1 } } :=
  c1_missing_capability capsNone DocKind.pdf rfl [] accInit ["r", "a.pdf"] ".pdf"
    fdNone (fdOfPdf "x")

/-- C2: the Content Reader uses the first encoding of the ordered list
that decodes without error; a read that yields no content is counted as
an error and contributes nothing; and if every encoding of the list
failed the file would be treated as unreadable (in fact no byte string
fails them all: Latin-1 accepts every byte). -/
theorem c2_encoding_fallback :
    (∀ (b : List Byte) (pre post : List PyEncoding) (e : PyEncoding) (cs : List Char),
      encodings = pre ++ e :: post → pyDecode e b = some cs →
      (∀ e' ∈ pre, pyDecode e' b = none) →
      readTextFile b = some (String.mk cs))
    ∧ (∀ (folders : List Fpath) (acc : BuildAcc) (p : Fpath) (ext : String),
        processCode folders acc p ext none
          = { acc with stats := { acc.stats with errors := acc.stats.errors + 1 } })
    ∧ (∀ b : List Byte, (∀ e ∈ encodings, pyDecode e b = none) → readTextFile b = none) := by
  refine ⟨?_, ?_, ?_⟩
  · intro b pre post e cs hEnc hdec hall
    unfold readTextFile
    rw [hEnc, tryDecode_first b pre e post cs hdec hall]
  · intro folders acc p ext
    rfl
  · intro b hall
    have h1 := hall PyEncoding.latin1 (by simp [encodings])
    rw [latin1_never_fails] at h1
    exact absurd h1 (by simp)

theorem c2_encoding_fallback_witness :
    readTextFile (asciiBytes "a") = some (String.mk ['a'])
    ∧ processCode [] accInit ["r", "x.py"] ".py" none
      = { accInit with stats := { accInit.stats with errors := accInit.stats.errors + 1 } } :=
  ⟨c2_encoding_fallback.1 (asciiBytes "a") []
      [PyEncoding.latin1, PyEncoding.cp1252, PyEncoding.ascii] PyEncoding.utf8 ['a']
      rfl (by decide) (by simp),
   c2_encoding_fallback.2.1 [] accInit ["r", "x.py"] ".py"⟩

theorem mem_keys_dictInsert {p k : Fpath} {v : Entry} :
    ∀ {l : List (Fpath × Entry)},
      p ∈ (dictInsert k v l).map Prod.fst ↔ p = k ∨ p ∈ l.map Prod.fst := by
  intro l
  induction l with
  | nil => simp [dictInsert]
  | cons x rest ih =>
    rcases x with ⟨k', v'⟩
    by_cases hk : k' = k
    · simp only [dictInsert]
      rw [if_pos hk]
      subst hk
      simp only [List.map_cons, List.mem_cons]
      tauto
    · simp only [dictInsert, if_neg hk, List.map_cons, List.mem_cons, ih]
      tauto

theorem nodup_keys_dictInsert {k : Fpath} {v : Entry} :
    ∀ {l : List (Fpath × Entry)},
      (l.map Prod.fst).Nodup → ((dictInsert k v l).map Prod.fst).Nodup := by
  intro l
  induction l with
  | nil => intro _; simp [dictInsert]
  | cons x rest ih =>
    rcases x with ⟨k', v'⟩
    intro h
    simp only [List.map_cons, List.nodup_cons] at h
    by_cases hk : k' = k
    · simp only [dictInsert]
      rw [if_pos hk]
      subst hk
      simp only [List.map_cons, List.nodup_cons]
      exact h
    · simp only [dictInsert, if_neg hk, List.map_cons, List.nodup_cons]
      refine ⟨fun hm => ?_, ih h.2⟩
      rcases mem_keys_dictInsert.mp hm with h1 | h1
      · exact hk h1
      · exact h.1 h1

theorem processOne_files_shape (folders : List Fpath) (caps : Caps) (fd : Fpath → FileData)
    (acc : BuildAcc) (c : Candidate) :
    (processOne folders caps fd acc c).files = acc.files
    ∨ ∃ e, (processOne folders caps fd acc c).files = dictInsert (candPath c) e acc.files := by
  cases c with
  | code p ext =>
    rcases h : readTextFile (fd p).bytes with _ | content
    · exact Or.inl (by simp [processOne, h, processCode])
    · exact Or.inr ⟨mkCodeEntry folders p ext content,
        by simp [processOne, h, processCode, applyOutcome, candPath]⟩
  | doc p dk ext =>
    rcases h : parseDocument caps (fd p) dk with ⟨t, m⟩
    cases t with
    | none => exact Or.inl (by simp [processOne, h, processDoc])
    | some text =>
      exact Or.inr ⟨mkDocEntry folders p dk ext text m,
        by simp [processOne, h, processDoc, applyOutcome, candPath]⟩

theorem processAll_nodup_keys (folders : List Fpath) (caps : Caps) (fd : Fpath → FileData) :
    ∀ (cands : List Candidate) (acc : BuildAcc),
      (acc.files.map Prod.fst).Nodup →
      ((processAll folders caps fd acc cands).files.map Prod.fst).Nodup := by
  intro cands
  induction cands with
  | nil => intro acc h; exact h
  | cons c rest ih =>
    intro acc h
    refine ih (processOne folders caps fd acc c) ?_
    rcases processOne_files_shape folders caps fd acc c with hs | ⟨e, hs⟩
    · rw [hs]; exact h
    · rw [hs]; exact nodup_keys_dictInsert h

/-- C3 (counterexample): the serialized index of a concrete run with one
code file and one parsed document has no `mode` key and no `documents`
mapping; both entries live under the single `files` key. -/
theorem c3_counterexample :
    ¬ ("mode" ∈ topKeys (encodeIndex runC3))
    ∧ ¬ ("documents" ∈ topKeys (encodeIndex runC3))
    ∧ (dictLookup ["r", "a.py"] runC3.files).isSome = true
    ∧ (dictLookup ["r", "b.pdf"] runC3.files).isSome = true := by
  decide

/-- C3 (amended): every run's serialized index has exactly the top-level
keys `version`, `created`, `folders`, `stats`, `files`, `functions`,
`search_index` — no mode tag and no separate documents mapping; code and
document entries share the single `files` mapping, which holds at most
one entry per path. -/
theorem c3_serialized_shape (roots : List (Fpath × Option FSTree)) (fd : Fpath → FileData)
    (created : String) (caps : Caps) :
    topKeys (encodeIndex (buildIndex roots fd created caps))
      = ["version", "created", "folders", "stats", "files", "functions", "search_index"]
    ∧ ((buildIndex roots fd created caps).files.map Prod.fst).Nodup := by
  constructor
  · rfl
  · exact processAll_nodup_keys _ _ _ _ _ (by simp)

theorem talLine_line {i : Nat} {l : List Char} {r : FuncRec} :
    r ∈ talLine i l → r.line = i + 1 := by
  intro h
  rcases hm : matchTal l with _ | ⟨nm, ty⟩ <;> simp [talLine, hm] at h
  rw [h]

theorem cobolLine_line {i : Nat} {l : List Char} {r : FuncRec} :
    r ∈ cobolLine i l → r.line = i + 1 := by
  intro h
  rcases hm : matchCobol l with _ | ⟨nm, ty⟩ <;> simp [cobolLine, hm] at h
  rw [h]

theorem javaLine_line {i : Nat} {l : List Char} {r : FuncRec} :
    r ∈ javaLine i l → r.line = i + 1 := by
  intro h
  rcases hm : matchJava l with _ | nm <;> simp [javaLine, hm] at h
  rw [h]

theorem pyLine_line {i : Nat} {l : List Char} {r : FuncRec} :
    r ∈ pyLine i l → r.line = i + 1 := by
  intro h
  rw [pyLine, List.mem_append] at h
  rcases h with h | h
  · rcases hm : matchPyDef l with _ | nm <;> simp [hm] at h
    rw [h]
  · rcases hm : matchPyClass l with _ | nm <;> simp [hm] at h
    rw [h]

theorem jsLine_line {i : Nat} {l : List Char} {r : FuncRec} :
    r ∈ jsLine i l → r.line = i + 1 := by
  intro h
  rw [jsLine, List.mem_append] at h
  rcases h with h | h
  · rcases hm : matchJs1 l with _ | nm <;> simp [hm] at h
    rw [h]
  · rcases hm : matchJs2 l with _ | nm <;> simp [hm] at h
    rw [h]

theorem flatMap_enumFrom_lower {g : Nat × List Char → List FuncRec}
    (hg : ∀ p r, r ∈ g p → r.line = p.1 + 1) :
    ∀ (k : Nat) (ls : List (List Char)) (r : FuncRec),
      r ∈ (List.enumFrom k ls).flatMap g → k + 1 ≤ r.line := by
  intro k ls
  induction ls generalizing k with
  | nil => intro r h; simp [List.enumFrom] at h
  | cons l rest ih =>
    intro r h
    simp only [List.enumFrom, List.flatMap_cons, List.mem_append] at h
    rcases h with h | h
    · rw [hg (k, l) r h]
    · exact Nat.le_of_succ_le (ih (k + 1) r h)

theorem flatMap_enumFrom_pairwise {g : Nat × List Char → List FuncRec}
    (hg : ∀ p r, r ∈ g p → r.line = p.1 + 1) :
    ∀ (k : Nat) (ls : List (List Char)),
      ((List.enumFrom k ls).flatMap g).Pairwise (fun a b => a.line ≤ b.line) := by
  intro k ls
  induction ls generalizing k with
  | nil => simp [List.enumFrom]
  | cons l rest ih =>
    simp only [List.enumFrom, List.flatMap_cons]
    rw [List.pairwise_append]
    refine ⟨?_, ih (k + 1), ?_⟩
    · exact List.Pairwise.imp (fun {a b} h => le_of_eq h)
        (List.pairwise_of_forall_mem_list (fun a ha b hb => by
          rw [hg (k, l) a ha, hg (k, l) b hb]))
    · intro a ha b hb
      rw [hg (k, l) a ha]
      exact Nat.le_of_succ_le (flatMap_enumFrom_lower hg (k + 1) rest b hb)

/-- C6: records are emitted in source line order for every content and
extension; no deduplication is performed (a name defined twice yields
two records, evaluated on a concrete duplicate); an extension with no
dispatch rule yields the empty list. -/
theorem c6_extractor_order :
    (∀ (content ext : String),
      (extractFunctions content ext).Pairwise (fun a b => a.line ≤ b.line))
    ∧ extractFunctions "def f():\ndef f():" ".py"
      = [{ name := "f", type := "function", line := 1 },
         { name := "f", type := "function", line := 2 }]
    ∧ (∀ (content ext : String),
        ext ∉ ([".tal", ".cbl", ".cob", ".cobol", ".cpy", ".java", ".py",
                ".js", ".ts", ".jsx", ".tsx"] : List String) →
        extractFunctions content ext = []) := by
  refine ⟨?_, by decide, ?_⟩
  · intro content ext
    simp only [extractFunctions]
    split
    · exact flatMap_enumFrom_pairwise (fun p r h => talLine_line h) 0 _
    · split
      · exact flatMap_enumFrom_pairwise (fun p r h => cobolLine_line h) 0 _
      · split
        · exact flatMap_enumFrom_pairwise (fun p r h => javaLine_line h) 0 _
        · split
          · exact flatMap_enumFrom_pairwise (fun p r h => pyLine_line h) 0 _
          · split
            · exact flatMap_enumFrom_pairwise (fun p r h => jsLine_line h) 0 _
            · simp
  · intro content ext h
    simp only [List.mem_cons, List.not_mem_nil, or_false, not_or] at h
    obtain ⟨h1, h2, h3, h4, h5, h6, h7, h8, h9, h10, h11⟩ := h
    simp [extractFunctions, h1, h2, h3, h4, h5, h6, h7, h8, h9, h10, h11]

theorem c6_extractor_order_witness :
    (extractFunctions "def a():\nclass B:" ".py").Pairwise (fun a b => a.line ≤ b.line)
    ∧ extractFunctions "x" ".zzz" = [] :=
  ⟨c6_extractor_order.1 "def a():\nclass B:" ".py",
   c6_extractor_order.2.2 "x" ".zzz" (by decide)⟩

theorem mem_insertDesc {x y : String × Nat} :
    ∀ {l : List (String × Nat)}, x ∈ insertDesc y l → x = y ∨ x ∈ l := by
  intro l
  induction l with
  | nil => intro h; simp [insertDesc] at h; exact Or.inl h
  | cons z rest ih =>
    intro h
    simp only [insertDesc] at h
    split at h
    · rcases List.mem_cons.mp h with h | h
      · exact Or.inl h
      · exact Or.inr h
    · rcases List.mem_cons.mp h with h | h
      · exact Or.inr (List.mem_cons.mpr (Or.inl h))
      · rcases ih h with h | h
        · exact Or.inl h
        · exact Or.inr (List.mem_cons.mpr (Or.inr h))

theorem mem_sortDesc_aux {x : String × Nat} :
    ∀ (l acc : List (String × Nat)),
      x ∈ l.foldl (fun a y => insertDesc y a) acc → x ∈ acc ∨ x ∈ l := by
  intro l
  induction l with
  | nil => intro acc h; exact Or.inl h
  | cons z rest ih =>
    intro acc h
    rcases ih (insertDesc z acc) h with h | h
    · rcases mem_insertDesc h with h | h
      · exact Or.inr (List.mem_cons.mpr (Or.inl h))
      · exact Or.inl h
    · exact Or.inr (List.mem_cons.mpr (Or.inr h))

theorem mem_sortDesc {x : String × Nat} {l : List (String × Nat)} :
    x ∈ sortDesc l → x ∈ l := by
  intro h
  rcases mem_sortDesc_aux l [] h with h | h
  · simp at h
  · exact h

theorem keys_bumpCount {k t : String} :
    ∀ {l : List (String × Nat)},
      k ∈ (bumpCount t l).map Prod.fst → k = t ∨ k ∈ l.map Prod.fst := by
  intro l
  induction l with
  | nil => intro h; simp [bumpCount] at h; exact Or.inl h
  | cons z rest ih =>
    intro h
    simp only [bumpCount] at h
    split at h
    · simp only [List.map_cons, List.mem_cons] at h
      rcases h with h | h
      · exact Or.inr (by simp [h])
      · exact Or.inr (by simp [h])
    · simp only [List.map_cons, List.mem_cons] at h
      rcases h with h | h
      · exact Or.inr (by simp [h])
      · rcases ih h with h | h
        · exact Or.inl h
        · exact Or.inr (by simp [h])

theorem keys_countFold {k : String} :
    ∀ (toks : List String) (acc : List (String × Nat)),
      k ∈ ((toks.foldl (fun a t => bumpCount t a) acc).map Prod.fst) →
      k ∈ acc.map Prod.fst ∨ k ∈ toks := by
  intro toks
  induction toks with
  | nil => intro acc h; exact Or.inl h
  | cons t rest ih =>
    intro acc h
    rcases ih (bumpCount t acc) h with h | h
    · rcases keys_bumpCount h with h | h
      · exact Or.inr (List.mem_cons.mpr (Or.inl h))
      · exact Or.inl h
    · exact Or.inr (List.mem_cons.mpr (Or.inr h))

/-- C9: the Keyword Extractor's output never exceeds the requested
maximum, and every emitted keyword is the case-folding of a token that
met its shape's minimum length threshold. -/
theorem c9_keyword_bounds (text : String) (maxKw : Nat) :
    (extractKeywords text maxKw).length ≤ maxKw
    ∧ ∀ k ∈ extractKeywords text maxKw, ∃ t, qualifies t = true ∧ k = caseFold t := by
  constructor
  · exact List.length_take_le maxKw _
  · intro k hk
    simp only [extractKeywords] at hk
    have hk1 := List.mem_of_mem_take hk
    rcases List.mem_map.mp hk1 with ⟨pair, hpair, hfst⟩
    have hcnt := mem_sortDesc hpair
    rcases keys_countFold _ [] (List.mem_map.mpr ⟨pair, hcnt, hfst⟩) with h | h
    · simp at h
    · have hkm := List.mem_of_mem_filter h
      rcases List.mem_map.mp hkm with ⟨t, ht, hcf⟩
      exact ⟨t, List.of_mem_filter ht, hcf.symm⟩

theorem c9_keyword_bounds_witness :
    (extractKeywords "widget widget gadget" 5).length ≤ 5
    ∧ (∃ t, qualifies t = true ∧ "WIDGET" = caseFold t) :=
  ⟨(c9_keyword_bounds "widget widget gadget" 5).1,
   (c9_keyword_bounds "widget widget gadget" 5).2 "WIDGET" (by decide)⟩

theorem dictLookup_insert_self (k : Fpath) (v : Entry) :
    ∀ (l : List (Fpath × Entry)), dictLookup k (dictInsert k v l) = some v := by
  intro l
  induction l with
  | nil => simp [dictInsert, dictLookup]
  | cons x rest ih =>
    rcases x with ⟨k', v'⟩
    by_cases hk : k' = k
    · simp only [dictInsert]
      rw [if_pos hk]
      simp [dictLookup]
    · simp only [dictInsert]
      rw [if_neg hk]
      simp only [dictLookup]
      rw [if_neg hk]
      exact ih

theorem dictLookup_insert_ne (k p : Fpath) (v : Entry) (hpk : ¬ p = k) :
    ∀ (l : List (Fpath × Entry)), dictLookup p (dictInsert k v l) = dictLookup p l := by
  intro l
  induction l with
  | nil =>
    simp only [dictInsert, dictLookup]
    rw [if_neg (fun hh => hpk hh.symm)]
  | cons x rest ih =>
    rcases x with ⟨k', v'⟩
    by_cases hk : k' = k
    · simp only [dictInsert]
      rw [if_pos hk]
      simp only [dictLookup]
      rw [if_neg (fun hh => hpk hh.symm), if_neg (fun hh => hpk (hk ▸ hh).symm)]
    · simp only [dictInsert]
      rw [if_neg hk]
      simp only [dictLookup]
      by_cases hp : k' = p
      · rw [if_pos hp, if_pos hp]
      · rw [if_neg hp, if_neg hp, ih]

theorem applyOutcome_some_files (acc : BuildAcc) (p : Fpath) (e : Entry) (gs : List GFunc) :
    (applyOutcome acc p (some (e, gs))).files = dictInsert p e acc.files := rfl

theorem applyOutcome_some_functions (acc : BuildAcc) (p : Fpath) (e : Entry)
    (gs : List GFunc) : (applyOutcome acc p (some (e, gs))).functions = acc.functions ++ gs := rfl

theorem processOne_eq (folders : List Fpath) (caps : Caps) (fd : Fpath → FileData)
    (acc : BuildAcc) (c : Candidate) :
    processOne folders caps fd acc c
      = applyOutcome acc (candPath c) (candOutcome folders caps fd c) := by
  cases c with
  | code p ext =>
    rcases h : readTextFile (fd p).bytes with _ | content <;>
      simp [processOne, processCode, candOutcome, applyOutcome, candPath, h]
  | doc p dk ext =>
    rcases h : parseDocument caps (fd p) dk with ⟨t, m⟩
    cases t <;> simp [processOne, processDoc, candOutcome, applyOutcome, candPath, h]

theorem mem_mkGlobals {g : GFunc} {p : Fpath} {funcs : List FuncRec} :
    g ∈ mkGlobals p funcs →
    g.file = p ∧ ({ name := g.name, type := g.type, line := g.line } : FuncRec) ∈ funcs := by
  intro h
  rcases List.mem_map.mp h with ⟨f0, hf0, heq⟩
  subst heq
  exact ⟨rfl, by simpa using hf0⟩

theorem candOutcome_code {folders : List Fpath} {caps : Caps} {fd : Fpath → FileData}
    {p : Fpath} {ext : String} {e : Entry} {gs : List GFunc} :
    candOutcome folders caps fd (Candidate.code p ext) = some (e, gs) →
    ∃ content, readTextFile (fd p).bytes = some content
      ∧ e = mkCodeEntry folders p ext content
      ∧ gs = mkGlobals p (extractFunctions content ext) := by
  intro h
  simp only [candOutcome] at h
  rcases Option.map_eq_some'.mp h with ⟨content, hr, heq⟩
  cases heq
  exact ⟨content, hr, rfl, rfl⟩

theorem candOutcome_doc {folders : List Fpath} {caps : Caps} {fd : Fpath → FileData}
    {p : Fpath} {dk : DocKind} {ext : String} {e : Entry} {gs : List GFunc} :
    candOutcome folders caps fd (Candidate.doc p dk ext) = some (e, gs) → gs = [] := by
  intro h
  simp only [candOutcome] at h
  rcases hp : parseDocument caps (fd p) dk with ⟨t, m⟩
  rw [hp] at h
  cases t with
  | none => simp at h
  | some text =>
    simp only [Option.some.injEq] at h
    cases h
    rfl

theorem classifyPath_path {p : Fpath} {c : Candidate} (h : classifyPath p = some c) :
    candPath c = p := by
  simp only [classifyPath] at h
  split at h
  · cases h; rfl
  · split at h
    · cases h; rfl
    · exact absurd h (by simp)

theorem processOne_good (folders : List Fpath) (caps : Caps) (fd : Fpath → FileData)
    (acc : BuildAcc) (c : Candidate)
    (hc : classifyPath (candPath c) = some c)
    (h : GoodAcc folders caps fd acc) :
    GoodAcc folders caps fd (processOne folders caps fd acc c) := by
  rw [processOne_eq]
  rcases hout : candOutcome folders caps fd c with _ | ⟨e, gs⟩
  · exact ⟨fun g hg => h.1 g hg, fun p e' h' => h.2 p e' h'⟩
  · have hpe : pathEntry folders caps fd (candPath c) = some (e, gs) := by
      simp [pathEntry, hc, hout]
    constructor
    · intro g hg
      rw [applyOutcome_some_functions] at hg
      rcases List.mem_append.mp hg with hg | hg
      · obtain ⟨e0, gs0, hpe0, hlk0, hmem0⟩ := h.1 g hg
        by_cases hf : g.file = candPath c
        · rw [hf, hpe] at hpe0
          have hpair := Option.some.inj hpe0
          have he : e = e0 := congrArg Prod.fst hpair
          refine ⟨e, gs, by rw [hf]; exact hpe, ?_, by rw [he]; exact hmem0⟩
          rw [applyOutcome_some_files, hf]
          exact dictLookup_insert_self (candPath c) e acc.files
        · refine ⟨e0, gs0, hpe0, ?_, hmem0⟩
          rw [applyOutcome_some_files, dictLookup_insert_ne (candPath c) g.file e hf]
          exact hlk0
      · cases c with
        | code p ext =>
          obtain ⟨content, hr, hee, hgg⟩ := candOutcome_code hout
          rw [hgg] at hg
          obtain ⟨hfile, hmem⟩ := mem_mkGlobals hg
          have hfile' : g.file = candPath (Candidate.code p ext) := hfile
          refine ⟨e, gs, by rw [hfile']; exact hpe, ?_, ?_⟩
          · rw [applyOutcome_some_files, hfile']
            exact dictLookup_insert_self _ e acc.files
          · rw [hee]
            exact hmem
        | doc p dk ext =>
          rw [candOutcome_doc hout] at hg
          exact absurd hg (List.not_mem_nil g)
    · intro q e' h'
      rw [applyOutcome_some_files] at h'
      by_cases hq : q = candPath c
      · rw [hq, dictLookup_insert_self] at h'
        have he := Option.some.inj h'
        exact ⟨gs, by rw [hq, hpe, he]⟩
      · rw [dictLookup_insert_ne (candPath c) q e hq] at h'
        exact h.2 q e' h'

theorem processAll_good (folders : List Fpath) (caps : Caps) (fd : Fpath → FileData) :
    ∀ (cands : List Candidate) (acc : BuildAcc),
      (∀ c ∈ cands, classifyPath (candPath c) = some c) →
      GoodAcc folders caps fd acc →
      GoodAcc folders caps fd (processAll folders caps fd acc cands) := by
  intro cands
  induction cands with
  | nil => intro acc _ h; exact h
  | cons c rest ih =>
    intro acc hwf h
    exact ih (processOne folders caps fd acc c)
      (fun c' hc' => hwf c' (List.mem_cons_of_mem c hc'))
      (processOne_good folders caps fd acc c (hwf c (List.mem_cons_self c rest)) h)

theorem classifyLoop_wf :
    ∀ (ps : List Fpath) (st : Stats) (c : Candidate),
      c ∈ (classifyLoop st ps).1 → classifyPath (candPath c) = some c := by
  intro ps
  induction ps with
  | nil => intro st c h; simp [classifyLoop] at h
  | cons p rest ih =>
    intro st c h
    rcases hp : classifyPath p with _ | c0
    · rw [classifyLoop, hp] at h
      exact ih st c h
    · rw [classifyLoop, hp] at h
      rcases List.mem_cons.mp h with h | h
      · subst h
        rw [classifyPath_path hp]
        exact hp
      · exact ih _ c h

theorem scanAll_wf :
    ∀ (roots : List (Fpath × Option FSTree)) (st : Stats) (c : Candidate),
      c ∈ (scanAll roots st).1 → classifyPath (candPath c) = some c := by
  intro roots
  induction roots with
  | nil => intro st c h; simp [scanAll] at h
  | cons r rest ih =>
    intro st c h
    rcases r with ⟨rp, t⟩
    rw [scanAll] at h
    rcases List.mem_append.mp h with h | h
    · cases t with
      | none => simp [scanDirectory] at h
      | some tree => exact classifyLoop_wf _ _ c h
    · exact ih _ c h

/-- C4: every entry of the global `functions` list references a file key
present in the `files` mapping, and its name/type/line triple is a
record of that entry's local `functions` list. -/
theorem c4_global_functions (roots : List (Fpath × Option FSTree)) (fd : Fpath → FileData)
    (created : String) (caps : Caps) :
    ∀ g ∈ (buildIndex roots fd created caps).functions,
      ∃ e, dictLookup g.file (buildIndex roots fd created caps).files = some e
        ∧ ({ name := g.name, type := g.type, line := g.line } : FuncRec) ∈ entryFunctions e := by
  have h0 : GoodAcc (roots.map Prod.fst) caps fd
      { files := [], functions := [], stats := (scanAll roots initStats).2 } :=
    ⟨fun g hg => absurd hg (List.not_mem_nil g), fun p e h => by simp [dictLookup] at h⟩
  have hgood := processAll_good (roots.map Prod.fst) caps fd (scanAll roots initStats).1
    { files := [], functions := [], stats := (scanAll roots initStats).2 }
    (fun c hc => scanAll_wf roots initStats c hc) h0
  intro g hg
  obtain ⟨e, gs, _, hlk, hmem⟩ := hgood.1 g hg
  exact ⟨e, hlk, hmem⟩

theorem c4_global_functions_witness :
    ∃ e, dictLookup ["r", "a.py"] runOk.files = some e
      ∧ ({ name := "f", type := "function", line := 1 } : FuncRec) ∈ entryFunctions e := by
  have h := c4_global_functions
    [(["r"], some (FSTree.node ["a.py"] FSForest.nil))]
    (fun _ => fdOfCode "def f(x):") "t" capsNone
    { name := "f", type := "function", file := ["r", "a.py"], line := 1 }
    (by decide)
  exact h

theorem dictInsert_not_mem {k : Fpath} {v : Entry} :
    ∀ {l : List (Fpath × Entry)}, k ∉ l.map Prod.fst → dictInsert k v l = l ++ [(k, v)] := by
  intro l
  induction l with
  | nil => intro _; rfl
  | cons x rest ih =>
    rcases x with ⟨k', v'⟩
    intro h
    simp only [List.map_cons, List.mem_cons] at h
    push_neg at h
    simp only [dictInsert]
    rw [if_neg (fun hh => h.1 hh.symm), ih h.2]
    rfl

theorem sumLines_append_single (l : List (Fpath × Entry)) (k : Fpath) (v : Entry) :
    sumLines (l ++ [(k, v)]) = sumLines l + entryLines v := by
  simp [sumLines]

theorem processAll_invariants (folders : List Fpath) (caps : Caps) (fd : Fpath → FileData) :
    ∀ (cands : List Candidate) (acc : BuildAcc),
      (cands.map candPath).Nodup →
      (∀ q ∈ acc.files.map Prod.fst, q ∉ cands.map candPath) →
      ((acc.stats.total_lines = sumLines acc.files →
         (processAll folders caps fd acc cands).stats.total_lines
           = sumLines (processAll folders caps fd acc cands).files)
       ∧ (acc.stats.indexed_files = acc.files.length →
          (processAll folders caps fd acc cands).stats.indexed_files
            = (processAll folders caps fd acc cands).files.length)) := by
  intro cands
  induction cands with
  | nil => intro acc _ _; exact ⟨fun h => h, fun h => h⟩
  | cons c rest ih =>
    intro acc hnd hdisj
    simp only [List.map_cons, List.nodup_cons] at hnd
    have heq : processOne folders caps fd acc c
        = applyOutcome acc (candPath c) (candOutcome folders caps fd c) :=
      processOne_eq folders caps fd acc c
    rw [processAll, heq]
    rcases hout : candOutcome folders caps fd c with _ | ⟨e, gs⟩
    · have hd' : ∀ q ∈ (applyOutcome acc (candPath c) none).files.map Prod.fst,
          q ∉ rest.map candPath :=
        fun q hq hmem => hdisj q hq (List.mem_cons_of_mem _ hmem)
      have hih := ih (applyOutcome acc (candPath c) none) hnd.2 hd'
      exact ⟨fun hinv => hih.1 hinv, fun hinv => hih.2 hinv⟩
    · have hkey : candPath c ∉ acc.files.map Prod.fst :=
        fun hmem => hdisj _ hmem (List.mem_cons_self _ _)
      have happ : dictInsert (candPath c) e acc.files = acc.files ++ [(candPath c, e)] :=
        dictInsert_not_mem hkey
      have hd' : ∀ q ∈ (applyOutcome acc (candPath c) (some (e, gs))).files.map Prod.fst,
          q ∉ rest.map candPath := by
        intro q hq
        rw [applyOutcome_some_files] at hq
        rcases mem_keys_dictInsert.mp hq with hq | hq
        · rw [hq]; exact hnd.1
        · exact fun hmem => hdisj q hq (List.mem_cons_of_mem _ hmem)
      have hih := ih (applyOutcome acc (candPath c) (some (e, gs))) hnd.2 hd'
      constructor
      · intro hinv
        apply hih.1
        show acc.stats.total_lines + entryLines e
          = sumLines (dictInsert (candPath c) e acc.files)
        rw [happ, sumLines_append_single, hinv]
      · intro hinv
        apply hih.2
        show acc.stats.indexed_files + 1 = (dictInsert (candPath c) e acc.files).length
        rw [happ, List.length_append, hinv]
        rfl

theorem processAll_counts (folders : List Fpath) (caps : Caps) (fd : Fpath → FileData) :
    ∀ (cands : List Candidate) (acc : BuildAcc),
      (processAll folders caps fd acc cands).stats.indexed_files
          + (processAll folders caps fd acc cands).stats.errors
        = acc.stats.indexed_files + acc.stats.errors + cands.length
      ∧ (processAll folders caps fd acc cands).stats.code_files = acc.stats.code_files
      ∧ (processAll folders caps fd acc cands).stats.doc_files = acc.stats.doc_files := by
  intro cands
  induction cands with
  | nil => intro acc; exact ⟨rfl, rfl, rfl⟩
  | cons c rest ih =>
    intro acc
    have heq : processOne folders caps fd acc c
        = applyOutcome acc (candPath c) (candOutcome folders caps fd c) :=
      processOne_eq folders caps fd acc c
    rw [processAll, heq]
    rcases hout : candOutcome folders caps fd c with _ | ⟨e, gs⟩
    · obtain ⟨h1, h2, h3⟩ := ih (applyOutcome acc (candPath c) none)
      simp only [applyOutcome] at h1 h2 h3 ⊢
      refine ⟨?_, h2, h3⟩
      rw [h1]
      simp only [List.length_cons]
      omega
    · obtain ⟨h1, h2, h3⟩ := ih (applyOutcome acc (candPath c) (some (e, gs)))
      simp only [applyOutcome] at h1 h2 h3 ⊢
      refine ⟨?_, h2, h3⟩
      rw [h1]
      simp only [List.length_cons]
      omega

theorem classifyLoop_stats :
    ∀ (ps : List Fpath) (st : Stats),
      (classifyLoop st ps).2.code_files + (classifyLoop st ps).2.doc_files
        = st.code_files + st.doc_files + (classifyLoop st ps).1.length
      ∧ (classifyLoop st ps).2.indexed_files = st.indexed_files
      ∧ (classifyLoop st ps).2.errors = st.errors
      ∧ (classifyLoop st ps).2.total_lines = st.total_lines := by
  intro ps
  induction ps with
  | nil => intro st; simp [classifyLoop]
  | cons p rest ih =>
    intro st
    rcases hp : classifyPath p with _ | c
    · simp only [classifyLoop, hp]
      exact ih st
    · simp only [classifyLoop, hp, List.length_cons]
      obtain ⟨h1, h2, h3, h4⟩ := ih (statBump st c)
      cases c <;> simp only [statBump] at h1 h2 h3 h4 ⊢ <;>
        exact ⟨by omega, h2, h3, h4⟩

theorem scanAll_stats :
    ∀ (roots : List (Fpath × Option FSTree)) (st : Stats),
      (scanAll roots st).2.code_files + (scanAll roots st).2.doc_files
        = st.code_files + st.doc_files + (scanAll roots st).1.length
      ∧ (scanAll roots st).2.indexed_files = st.indexed_files
      ∧ (scanAll roots st).2.errors = st.errors
      ∧ (scanAll roots st).2.total_lines = st.total_lines := by
  intro roots
  induction roots with
  | nil => intro st; simp [scanAll]
  | cons r rest ih =>
    intro st
    rcases r with ⟨rp, t⟩
    cases t with
    | none =>
      simp only [scanAll, scanDirectory]
      obtain ⟨h1, h2, h3, h4⟩ := ih st
      exact ⟨by simpa using h1, h2, h3, h4⟩
    | some tree =>
      simp only [scanAll, scanDirectory]
      obtain ⟨g1, g2, g3, g4⟩ := classifyLoop_stats (walkTree rp tree) st
      obtain ⟨h1, h2, h3, h4⟩ := ih (classifyLoop st (walkTree rp tree)).2
      refine ⟨?_, by rw [h2, g2], by rw [h3, g3], by rw [h4, g4]⟩
      rw [List.length_append]
      omega

/-- C5 (counterexample): passing the same root folder twice makes the
scan yield the same file twice; `total_lines` then counts its lines
twice while the files map stores the entry once, so the invariant fails
for that run. -/
theorem c5_counterexample :
    ¬ (runC5.stats.total_lines = sumLines runC5.files) := by
  decide

/-- C5 (amended): for every run in which no file path is yielded more
than once by the scan, `stats.total_lines` equals the sum of the stored
entries' `lines` fields; failed files contribute nothing.  (In general a
path scanned twice is counted twice in `total_lines` but stored once.) -/
theorem c5_total_lines (roots : List (Fpath × Option FSTree)) (fd : Fpath → FileData)
    (created : String) (caps : Caps)
    (h : ((scanAll roots initStats).1.map candPath).Nodup) :
    (buildIndex roots fd created caps).stats.total_lines
      = sumLines (buildIndex roots fd created caps).files := by
  have hinv := (processAll_invariants (roots.map Prod.fst) caps fd
    (scanAll roots initStats).1
    { files := [], functions := [], stats := (scanAll roots initStats).2 }
    h (by simp)).1
  apply hinv
  show (scanAll roots initStats).2.total_lines = sumLines []
  rw [(scanAll_stats roots initStats).2.2.2]
  rfl

theorem c5_total_lines_witness : runOk.stats.total_lines = sumLines runOk.files :=
  c5_total_lines [(["r"], some (FSTree.node ["a.py"] FSForest.nil))]
    (fun _ => fdOfCode "def f(x):") "t" capsNone (by decide)

/-- C10: when the scan yields no duplicate path, every candidate either
stores exactly one entry or counts exactly one error: afterwards
`indexed_files` is the size of the files mapping and
`indexed_files + errors = code_files + doc_files`. -/
theorem c10_run_counters (roots : List (Fpath × Option FSTree)) (fd : Fpath → FileData)
    (created : String) (caps : Caps)
    (h : ((scanAll roots initStats).1.map candPath).Nodup) :
    (buildIndex roots fd created caps).stats.indexed_files
      = (buildIndex roots fd created caps).files.length
    ∧ (buildIndex roots fd created caps).stats.indexed_files
        + (buildIndex roots fd created caps).stats.errors
      = (buildIndex roots fd created caps).stats.code_files
        + (buildIndex roots fd created caps).stats.doc_files := by
  constructor
  · have hinv := (processAll_invariants (roots.map Prod.fst) caps fd
      (scanAll roots initStats).1
      { files := [], functions := [], stats := (scanAll roots initStats).2 }
      h (by simp)).2
    apply hinv
    show (scanAll roots initStats).2.indexed_files = ([] : List (Fpath × Entry)).length
    rw [(scanAll_stats roots initStats).2.1]
    rfl
  · obtain ⟨h1, h2, h3⟩ := processAll_counts (roots.map Prod.fst) caps fd
      (scanAll roots initStats).1
      { files := [], functions := [], stats := (scanAll roots initStats).2 }
    obtain ⟨g1, g2, g3, _⟩ := scanAll_stats roots initStats
    have g1' : (scanAll roots initStats).2.code_files + (scanAll roots initStats).2.doc_files
        = 0 + 0 + (scanAll roots initStats).1.length := g1
    have g2' : (scanAll roots initStats).2.indexed_files = 0 := g2
    have g3' : (scanAll roots initStats).2.errors = 0 := g3
    have h1' : (processAll (roots.map Prod.fst) caps fd
          { files := [], functions := [], stats := (scanAll roots initStats).2 }
          (scanAll roots initStats).1).stats.indexed_files
        + (processAll (roots.map Prod.fst) caps fd
          { files := [], functions := [], stats := (scanAll roots initStats).2 }
          (scanAll roots initStats).1).stats.errors
        = (scanAll roots initStats).2.indexed_files + (scanAll roots initStats).2.errors
          + (scanAll roots initStats).1.length := h1
    have h2' : (processAll (roots.map Prod.fst) caps fd
          { files := [], functions := [], stats := (scanAll roots initStats).2 }
          (scanAll roots initStats).1).stats.code_files
        = (scanAll roots initStats).2.code_files := h2
    have h3' : (processAll (roots.map Prod.fst) caps fd
          { files := [], functions := [], stats := (scanAll roots initStats).2 }
          (scanAll roots initStats).1).stats.doc_files
        = (scanAll roots initStats).2.doc_files := h3
    show (processAll (roots.map Prod.fst) caps fd
        { files := [], functions := [], stats := (scanAll roots initStats).2 }
        (scanAll roots initStats).1).stats.indexed_files
      + (processAll (roots.map Prod.fst) caps fd
        { files := [], functions := [], stats := (scanAll roots initStats).2 }
        (scanAll roots initStats).1).stats.errors
      = (processAll (roots.map Prod.fst) caps fd
        { files := [], functions := [], stats := (scanAll roots initStats).2 }
        (scanAll roots initStats).1).stats.code_files
      + (processAll (roots.map Prod.fst) caps fd
        { files := [], functions := [], stats := (scanAll roots initStats).2 }
        (scanAll roots initStats).1).stats.doc_files
    omega

theorem c10_run_counters_witness :
    runOk.stats.indexed_files = runOk.files.length
    ∧ runOk.stats.indexed_files + runOk.stats.errors
      = runOk.stats.code_files + runOk.stats.doc_files :=
  c10_run_counters [(["r"], some (FSTree.node ["a.py"] FSForest.nil))]
    (fun _ => fdOfCode "def f(x):") "t" capsNone (by decide)

mutual
theorem walkTree_shape (pre : Fpath) (t : FSTree) :
    ∀ p ∈ walkTree pre t, ∃ rest, p = pre ++ rest ∧ rest ≠ []
      ∧ ∀ d ∈ rest.dropLast, d ∉ SKIP_DIRS := by
  cases t with
  | node files subdirs =>
    intro p hp
    rw [walkTree, List.mem_append] at hp
    rcases hp with hp | hp
    · rcases List.mem_map.mp hp with ⟨n, _, hn⟩
      exact ⟨[n], hn.symm, by simp, by simp⟩
    · exact walkForest_shape pre subdirs p hp
theorem walkForest_shape (pre : Fpath) (f : FSForest) :
    ∀ p ∈ walkForest pre f, ∃ rest, p = pre ++ rest ∧ rest ≠ []
      ∧ ∀ d ∈ rest.dropLast, d ∉ SKIP_DIRS := by
  cases f with
  | nil => intro p hp; simp [walkForest] at hp
  | cons n t rest =>
    intro p hp
    rw [walkForest, List.mem_append] at hp
    rcases hp with hp | hp
    · by_cases hn : n ∈ SKIP_DIRS
      · rw [if_pos hn] at hp
        exact absurd hp (List.not_mem_nil p)
      · rw [if_neg hn] at hp
        rcases walkTree_shape (pre ++ [n]) t p hp with ⟨rest', hpre, hne, hd⟩
        refine ⟨n :: rest', by rw [hpre, List.append_assoc]; rfl, by simp, ?_⟩
        rcases rest' with _ | ⟨a, l⟩
        · exact absurd rfl hne
        · intro d hd'
          rcases List.mem_cons.mp (by simpa using hd') with hdn | hdn
          · rw [hdn]; exact hn
          · exact hd d hdn
    · exact walkForest_shape pre rest p hp
end

theorem classifyLoop_paths :
    ∀ (ps : List Fpath) (st : Stats) (c : Candidate),
      c ∈ (classifyLoop st ps).1 → candPath c ∈ ps := by
  intro ps
  induction ps with
  | nil => intro st c h; simp [classifyLoop] at h
  | cons p rest ih =>
    intro st c h
    rcases hp : classifyPath p with _ | c0
    · rw [classifyLoop, hp] at h
      exact List.mem_cons_of_mem p (ih st c h)
    · rw [classifyLoop, hp] at h
      rcases List.mem_cons.mp h with h | h
      · subst h
        rw [classifyPath_path hp]
        exact List.mem_cons_self p rest
      · exact List.mem_cons_of_mem p (ih _ c h)

theorem scanAll_src :
    ∀ (roots : List (Fpath × Option FSTree)) (st : Stats) (c : Candidate),
      c ∈ (scanAll roots st).1 →
      ∃ rp t, (rp, some t) ∈ roots ∧ candPath c ∈ walkTree rp t := by
  intro roots
  induction roots with
  | nil => intro st c h; simp [scanAll] at h
  | cons r rest ih =>
    intro st c h
    rcases r with ⟨rp, t⟩
    rw [scanAll] at h
    rcases List.mem_append.mp h with h | h
    · cases t with
      | none => simp [scanDirectory] at h
      | some tree =>
        exact ⟨rp, tree, List.mem_cons_self _ _, classifyLoop_paths _ _ c h⟩
    · rcases ih _ c h with ⟨rp', t', hmem, hw⟩
      exact ⟨rp', t', List.mem_cons_of_mem _ hmem, hw⟩

theorem processAll_lookup_paths (folders : List Fpath) (caps : Caps) (fd : Fpath → FileData) :
    ∀ (cands : List Candidate) (acc : BuildAcc) (p : Fpath),
      (dictLookup p (processAll folders caps fd acc cands).files).isSome = true →
      (dictLookup p acc.files).isSome = true ∨ p ∈ cands.map candPath := by
  intro cands
  induction cands with
  | nil => intro acc p h; exact Or.inl h
  | cons c rest ih =>
    intro acc p h
    rcases ih (processOne folders caps fd acc c) p h with h1 | h1
    · rcases processOne_files_shape folders caps fd acc c with hs | ⟨e, hs⟩
      · rw [hs] at h1
        exact Or.inl h1
      · rw [hs] at h1
        by_cases hp : p = candPath c
        · exact Or.inr (by rw [hp]; simp)
        · rw [dictLookup_insert_ne _ _ _ hp] at h1
          exact Or.inl h1
    · exact Or.inr (by simp only [List.map_cons, List.mem_cons]; exact Or.inr h1)

/-- C8 (counterexample): a root folder itself named `node_modules` is
still scanned — the exclusion set prunes only subdirectories — so a file
whose path contains an excluded directory name IS present in the index
for that run. -/
theorem c8_counterexample :
    "node_modules" ∈ SKIP_DIRS
    ∧ "node_modules" ∈ (["node_modules", "a.py"] : Fpath)
    ∧ (dictLookup ["node_modules", "a.py"] runC8.files).isSome = true := by
  decide

/-- C8 (amended): every path stored in the index comes from walking some
given root, and no directory component strictly below that root is in
the exclusion set: excluded directory names are pruned before descent
everywhere except at a root folder itself. -/
theorem c8_pruned_dirs (roots : List (Fpath × Option FSTree)) (fd : Fpath → FileData)
    (created : String) (caps : Caps) :
    ∀ p : Fpath, (dictLookup p (buildIndex roots fd created caps).files).isSome = true →
      ∃ rp rest, (∃ t, (rp, some t) ∈ roots) ∧ p = rp ++ rest ∧ rest ≠ []
        ∧ ∀ d ∈ rest.dropLast, d ∉ SKIP_DIRS := by
  intro p h
  have h' : (dictLookup p (processAll (roots.map Prod.fst) caps fd
      { files := [], functions := [], stats := (scanAll roots initStats).2 }
      (scanAll roots initStats).1).files).isSome = true := h
  rcases processAll_lookup_paths (roots.map Prod.fst) caps fd (scanAll roots initStats).1
      { files := [], functions := [], stats := (scanAll roots initStats).2 } p h' with h1 | h1
  · simp [dictLookup] at h1
  · rcases List.mem_map.mp h1 with ⟨c, hc, hcp⟩
    rcases scanAll_src roots initStats c hc with ⟨rp, t, hrt, hw⟩
    rcases walkTree_shape rp t (candPath c) hw with ⟨rest, hpre, hne, hd⟩
    exact ⟨rp, rest, ⟨t, hrt⟩, by rw [← hcp]; exact hpre, hne, hd⟩

theorem c8_pruned_dirs_witness :
    ∃ rp rest, (∃ t, (rp, some t) ∈
        ([(["r"], some (FSTree.node ["a.py"] FSForest.nil))] :
          List (Fpath × Option FSTree)))
      ∧ (["r", "a.py"] : Fpath) = rp ++ rest ∧ rest ≠ []
      ∧ ∀ d ∈ rest.dropLast, d ∉ SKIP_DIRS :=
  c8_pruned_dirs [(["r"], some (FSTree.node ["a.py"] FSForest.nil))]
    (fun _ => fdOfCode "def f(x):") "t" capsNone ["r", "a.py"] (by decide)
